/-
Verification of the hashnode-blog-pull-workflow core logic.

Strings are modelled as `List Char` (one element per UTF-16-ish code point of
the JavaScript string).  The JavaScript string primitives used by the source
(`String.prototype.includes`, `String.prototype.indexOf`,
`String.prototype.substring`, `String.prototype.trim`, template-literal
concatenation, `Array.prototype.join`) are embedded as executable functions
on `List Char`.
-/
import Mathlib

/-! ### Generic list helpers (take / drop / set / getD over an append) -/

theorem takeLenAppend {α : Type} (l t : List α) : (l ++ t).take l.length = l := by
  induction l with
  | nil => simp
  | cons a l ih => simp [ih]

theorem dropLenAppend (l t : List Char) : (l ++ t).drop l.length = t := by
  induction l with
  | nil => simp
  | cons a l ih => simp [ih]

theorem takeAppendLe (l t : List Char) (n : Nat) (h : n ≤ l.length) :
    (l ++ t).take n = l.take n := by
  induction l generalizing n with
  | nil => simp at h; simp [h]
  | cons a l ih =>
    cases n with
    | zero => simp
    | succ m =>
      simp only [List.cons_append, List.take_succ_cons]
      exact congrArg (a :: ·) (ih m (Nat.le_of_succ_le_succ h))

theorem takeAppendGe (l t : List Char) (n : Nat) (h : l.length ≤ n) :
    (l ++ t).take n = l ++ t.take (n - l.length) := by
  induction l generalizing n with
  | nil => simp
  | cons a l ih =>
    cases n with
    | zero => exact absurd h (by simp)
    | succ m =>
      simp only [List.cons_append, List.take_succ_cons, List.length_cons, Nat.succ_sub_succ]
      exact congrArg (a :: ·) (ih m (Nat.le_of_succ_le_succ h))

theorem dropAppendLe (l t : List Char) (n : Nat) (h : n ≤ l.length) :
    (l ++ t).drop n = l.drop n ++ t := by
  induction l generalizing n with
  | nil => simp at h; simp [h]
  | cons a l ih =>
    cases n with
    | zero => simp
    | succ m => simpa using ih m (Nat.le_of_succ_le_succ h)

theorem dropAppendGe (l t : List Char) (n : Nat) (h : l.length ≤ n) :
    (l ++ t).drop n = t.drop (n - l.length) := by
  induction l generalizing n with
  | nil => simp
  | cons a l ih =>
    cases n with
    | zero => exact absurd h (by simp)
    | succ m => simpa [Nat.succ_sub_succ] using ih m (Nat.le_of_succ_le_succ h)

theorem setLenAppend {α : Type} (l : List α) (a b : α) :
    (l ++ [a]).set l.length b = l ++ [b] := by
  induction l with
  | nil => rfl
  | cons x l ih => simpa using ih

theorem getDLenAppend {α : Type} (l : List α) (a d : α) :
    (l ++ [a]).getD l.length d = a := by
  induction l with
  | nil => rfl
  | cons x l ih => simpa using ih

theorem getDAppendLt {α : Type} (l t : List α) (n : Nat) (d : α) (h : n < l.length) :
    (l ++ t).getD n d = l.getD n d := by
  induction l generalizing n with
  | nil => simp at h
  | cons x l ih =>
    cases n with
    | zero => rfl
    | succ m => simpa using ih m (Nat.lt_of_succ_lt_succ h)

/-! ### `pfx`: Boolean prefix test on character lists -/

def pfx : List Char → List Char → Bool
  | [], _ => true
  | _ :: _, [] => false
  | p :: ps, t :: ts => decide (p = t) && pfx ps ts

theorem pfx_iff (pat text : List Char) : pfx pat text = true ↔ ∃ t, pat ++ t = text := by
  induction pat generalizing text with
  | nil => simp [pfx]
  | cons p ps ih =>
    cases text with
    | nil => simp [pfx]
    | cons c cs =>
      simp only [pfx, Bool.and_eq_true, decide_eq_true_eq, ih, List.cons_append,
        List.cons.injEq]
      constructor
      · rintro ⟨rfl, t, rfl⟩; exact ⟨t, rfl, rfl⟩
      · rintro ⟨t, rfl, rfl⟩; exact ⟨rfl, t, rfl⟩

theorem pfx_append (pat t : List Char) : pfx pat (pat ++ t) = true :=
  (pfx_iff pat (pat ++ t)).mpr ⟨t, rfl⟩

theorem pfx_length_le {pat text : List Char} (h : pfx pat text = true) :
    pat.length ≤ text.length := by
  obtain ⟨t, rfl⟩ := (pfx_iff pat text).mp h
  simp

theorem pfx_take {pat text : List Char} (h : pfx pat text = true) :
    text.take pat.length = pat := by
  obtain ⟨t, rfl⟩ := (pfx_iff pat text).mp h
  exact takeLenAppend pat t

theorem pfx_head {pat text : List Char} (h : pfx pat text = true) (hne : pat ≠ []) :
    text.head? = pat.head? := by
  obtain ⟨t, rfl⟩ := (pfx_iff pat text).mp h
  cases pat with
  | nil => exact absurd rfl hne
  | cons p ps => rfl

/-- A prefix of `u ++ b` is either a prefix of `u`, or it extends `u` and its
remainder is a prefix of `b`. -/
theorem pfx_append_cases {pat u b : List Char} (h : pfx pat (u ++ b) = true) :
    pfx pat u = true ∨ (pfx u pat = true ∧ pfx (pat.drop u.length) b = true) := by
  obtain ⟨t, ht⟩ := (pfx_iff pat (u ++ b)).mp h
  by_cases hlen : pat.length ≤ u.length
  · left
    have h1 : (pat ++ t).take pat.length = (u ++ b).take pat.length := by rw [ht]
    rw [takeLenAppend, takeAppendLe u b pat.length hlen] at h1
    refine (pfx_iff pat u).mpr ⟨u.drop pat.length, ?_⟩
    nth_rewrite 1 [h1]
    exact List.take_append_drop _ u
  · right
    have hlen' : u.length ≤ pat.length := Nat.le_of_lt (Nat.lt_of_not_le hlen)
    have h1 : (pat ++ t).take u.length = (u ++ b).take u.length := by rw [ht]
    rw [takeLenAppend, takeAppendLe pat t u.length hlen'] at h1
    have hup : pfx u pat = true := by
      refine (pfx_iff u pat).mpr ⟨pat.drop u.length, ?_⟩
      nth_rewrite 1 [← h1]
      exact List.take_append_drop _ pat
    have h2 : (pat ++ t).drop u.length = (u ++ b).drop u.length := by rw [ht]
    rw [dropLenAppend, dropAppendLe pat t u.length hlen'] at h2
    exact ⟨hup, (pfx_iff (pat.drop u.length) b).mpr ⟨t, h2⟩⟩

/-- A prefix of `l ++ r` no longer than `l` is a prefix of `l`. -/
theorem pfx_of_short {pat l r : List Char} (h : pfx pat (l ++ r) = true)
    (hlen : pat.length ≤ l.length) : pfx pat l = true := by
  rcases pfx_append_cases h with h1 | ⟨h1, _⟩
  · exact h1
  · obtain ⟨t, ht⟩ := (pfx_iff l pat).mp h1
    have hlt : t.length = 0 := by
      have := congrArg List.length ht
      simp at this
      omega
    have ht0 : t = [] := List.length_eq_zero.mp hlt
    subst ht0
    have hl : l = pat := by simpa using ht
    subst hl
    exact (pfx_iff l l).mpr ⟨[], by simp⟩

/-! ### `strIncludes` / `strIndexOf`: JavaScript `includes` and `indexOf` -/

/-- JavaScript `text.includes(pat)`. -/
def strIncludes : List Char → List Char → Bool
  | [], pat => pfx pat []
  | c :: rest, pat => pfx pat (c :: rest) || strIncludes rest pat

/-- JavaScript `text.indexOf(pat)`, total: only meaningful when
`strIncludes text pat = true` (the source only reads it under that guard). -/
def strIndexOf : List Char → List Char → Nat
  | [], _ => 0
  | c :: rest, pat => if pfx pat (c :: rest) = true then 0 else strIndexOf rest pat + 1

theorem strIncludes_iff (text pat : List Char) :
    strIncludes text pat = true ↔ ∃ u v, u ++ pat ++ v = text := by
  induction text with
  | nil =>
    simp only [strIncludes, pfx_iff]
    constructor
    · rintro ⟨t, ht⟩
      exact ⟨[], t, by simpa using ht⟩
    · rintro ⟨u, v, huv⟩
      have hu : u = [] := by cases u <;> simp_all
      subst hu
      exact ⟨v, by simpa using huv⟩
  | cons c rest ih =>
    simp only [strIncludes, Bool.or_eq_true, ih]
    constructor
    · rintro (h | ⟨u, v, rfl⟩)
      · obtain ⟨t, ht⟩ := (pfx_iff _ _).mp h
        exact ⟨[], t, by simpa using ht⟩
      · exact ⟨c :: u, v, rfl⟩
    · rintro ⟨u, v, huv⟩
      cases u with
      | nil =>
        left
        exact (pfx_iff _ _).mpr ⟨v, by simpa using huv⟩
      | cons x u =>
        right
        have hx : x = c := by simpa using congrArg List.head? huv
        refine ⟨u, v, ?_⟩
        have := congrArg List.tail huv
        simpa using this

theorem strIncludes_parts (u pat v : List Char) :
    strIncludes (u ++ pat ++ v) pat = true :=
  (strIncludes_iff _ _).mpr ⟨u, v, rfl⟩

theorem strIndexOf_minimal (text pat : List Char) :
    ∀ q, q < strIndexOf text pat → pfx pat (text.drop q) = false := by
  induction text with
  | nil => intro q hq; simp [strIndexOf] at hq
  | cons c rest ih =>
    intro q hq
    simp only [strIndexOf] at hq
    by_cases h : pfx pat (c :: rest) = true
    · simp [h] at hq
    · simp only [h, if_false] at hq
      cases q with
      | zero => simpa using (Bool.not_eq_true _).mp h
      | succ m => simpa using ih m (Nat.lt_of_succ_lt_succ hq)

theorem strIndexOf_recon {text pat : List Char} (h : strIncludes text pat = true) :
    text.take (strIndexOf text pat) ++ pat ++ text.drop (strIndexOf text pat + pat.length)
      = text := by
  induction text with
  | nil =>
    simp only [strIncludes, pfx_iff] at h
    obtain ⟨t, ht⟩ := h
    have hp : pat = [] := by cases pat <;> simp_all
    simp [strIndexOf, hp]
  | cons c rest ih =>
    by_cases hp : pfx pat (c :: rest) = true
    · obtain ⟨t, ht⟩ := (pfx_iff _ _).mp hp
      simp only [strIndexOf, hp, if_true, List.take_zero, List.nil_append, Nat.zero_add]
      rw [← ht, dropLenAppend]
    · have hrest : strIncludes rest pat = true := by
        simp only [strIncludes, Bool.or_eq_true] at h
        rcases h with h | h
        · exact absurd h hp
        · exact h
      simp only [strIndexOf, hp, if_false]
      have := ih hrest
      simpa [Nat.succ_add, List.take_succ_cons] using congrArg (c :: ·) this

theorem strIndexOf_le (text pat : List Char) : strIndexOf text pat ≤ text.length := by
  induction text with
  | nil => simp [strIndexOf]
  | cons c rest ih =>
    simp only [strIndexOf]
    by_cases h : pfx pat (c :: rest) = true
    · simp [h]
    · rw [if_neg h]
      simp only [List.length_cons]
      exact Nat.succ_le_succ ih

/-- The first occurrence is pinned: if the pattern occurs right after `u` and
does not start anywhere inside `u`, then `strIndexOf` returns `u.length`. -/
theorem strIndexOf_unique {u pat v : List Char}
    (hmin : ∀ q, q < u.length → pfx pat ((u ++ pat ++ v).drop q) = false) :
    strIndexOf (u ++ pat ++ v) pat = u.length := by
  induction u with
  | nil =>
    simp only [List.nil_append, List.length_nil]
    cases pat with
    | nil => cases v <;> simp [strIndexOf, pfx]
    | cons p ps =>
      have : pfx (p :: ps) ((p :: ps) ++ v) = true := pfx_append _ _
      cases hv : (p :: ps) ++ v with
      | nil => simp at hv
      | cons x xs => rw [hv] at this; simp [strIndexOf, this]
  | cons a u ih =>
    have hrw : (a :: u) ++ pat ++ v = a :: (u ++ pat ++ v) := by simp
    have h0 : pfx pat (a :: (u ++ pat ++ v)) = false := by
      have := hmin 0 (by simp)
      rw [hrw] at this
      simpa using this
    have hmin' : ∀ q, q < u.length → pfx pat ((u ++ pat ++ v).drop q) = false := by
      intro q hq
      have := hmin (q + 1) (by simp; omega)
      rw [hrw] at this
      simpa using this
    rw [hrw]
    have h0' : ¬ pfx pat (a :: (u ++ pat ++ v)) = true := by
      simp only [Bool.not_eq_true]
      exact h0
    simp only [strIndexOf, if_neg h0', List.length_cons]
    exact congrArg (· + 1) (ih hmin')

theorem strIncludes_append_right {a pat : List Char} (t : List Char)
    (h : strIncludes a pat = true) : strIncludes (a ++ t) pat = true := by
  obtain ⟨u, v, rfl⟩ := (strIncludes_iff a pat).mp h
  have : u ++ pat ++ v ++ t = u ++ pat ++ (v ++ t) := by simp
  rw [this]
  exact strIncludes_parts u pat (v ++ t)

/-- Occurrence analysis over an append: either the pattern occurs inside `a`,
inside `b`, or it straddles the boundary. -/
theorem strIncludes_straddle {pat a b : List Char}
    (h : strIncludes (a ++ b) pat = true) :
    strIncludes a pat = true ∨ strIncludes b pat = true ∨
      ∃ k s, 0 < k ∧ k < pat.length ∧ s ++ pat.take k = a ∧ pfx (pat.drop k) b = true := by
  obtain ⟨u, v, huv⟩ := (strIncludes_iff (a ++ b) pat).mp h
  by_cases h1 : u.length + pat.length ≤ a.length
  · left
    have hu : u.length ≤ a.length := by omega
    have htake : (u ++ pat ++ v).take a.length = (a ++ b).take a.length := by rw [huv]
    rw [takeLenAppend] at htake
    have hassoc : u ++ pat ++ v = u ++ (pat ++ v) := by simp
    rw [hassoc, takeAppendGe u (pat ++ v) a.length hu,
        takeAppendGe pat v (a.length - u.length) (by omega)] at htake
    rw [← htake]
    have : u ++ (pat ++ (v.take (a.length - u.length - pat.length)))
        = u ++ pat ++ v.take (a.length - u.length - pat.length) := by simp
    rw [this]
    exact strIncludes_parts _ _ _
  · by_cases h2 : a.length ≤ u.length
    · right; left
      have hdrop : (u ++ pat ++ v).drop a.length = (a ++ b).drop a.length := by rw [huv]
      rw [dropLenAppend] at hdrop
      have hassoc : u ++ pat ++ v = u ++ (pat ++ v) := by simp
      rw [hassoc, dropAppendLe u (pat ++ v) a.length h2] at hdrop
      have hre : u.drop a.length ++ (pat ++ v) = u.drop a.length ++ pat ++ v := by simp
      rw [hre] at hdrop
      rw [← hdrop]
      exact strIncludes_parts _ _ _
    · right; right
      have hu : u.length < a.length := Nat.lt_of_not_le h2
      have hk : a.length - u.length < pat.length := by omega
      refine ⟨a.length - u.length, u, by omega, hk, ?_, ?_⟩
      · have htake : (u ++ pat ++ v).take a.length = (a ++ b).take a.length := by rw [huv]
        rw [takeLenAppend] at htake
        have hassoc : u ++ pat ++ v = u ++ (pat ++ v) := by simp
        rw [hassoc, takeAppendGe u (pat ++ v) a.length (by omega),
            takeAppendLe pat v (a.length - u.length) (by omega)] at htake
        exact htake
      · have hdrop : (u ++ pat ++ v).drop a.length = (a ++ b).drop a.length := by rw [huv]
        rw [dropLenAppend] at hdrop
        have hassoc : u ++ pat ++ v = u ++ (pat ++ v) := by simp
        rw [hassoc, dropAppendGe u (pat ++ v) a.length (by omega),
            dropAppendLe pat v (a.length - u.length) (by omega)] at hdrop
        exact (pfx_iff _ _).mpr ⟨v, hdrop⟩

theorem headq_mem {l : List Char} {c : Char} (h : l.head? = some c) : c ∈ l := by
  cases l with
  | nil => cases h
  | cons x xs =>
    have : x = c := by simpa using h
    simp [this]

theorem getLastq_cons_cons (a b : Char) (l : List Char) :
    (a :: b :: l).getLast? = (b :: l).getLast? := rfl

theorem getLastq_append (l r : List Char) (h : r ≠ []) :
    (l ++ r).getLast? = r.getLast? := by
  induction l with
  | nil => rfl
  | cons a l ih =>
    cases hl : l ++ r with
    | nil =>
      rcases List.append_eq_nil.mp hl with ⟨-, hr⟩
      exact absurd hr h
    | cons y ys =>
      have : (a :: (l ++ r)).getLast? = (l ++ r).getLast? := by
        rw [hl]; exact getLastq_cons_cons a y ys
      rw [List.cons_append, this, ih]

theorem getLastq_mem {l : List Char} {c : Char} (h : l.getLast? = some c) : c ∈ l := by
  induction l with
  | nil => cases h
  | cons a l ih =>
    cases l with
    | nil =>
      have : a = c := by simpa using h
      simp [this]
    | cons b m =>
      have : (b :: m).getLast? = some c := h
      exact List.mem_cons_of_mem a (ih this)

theorem headq_of_drop {l : List Char} {m : Nat} {d : Char}
    (h : (l.drop m).head? = some d) : d ∈ l :=
  List.drop_subset m l (headq_mem h)

theorem headq_drop_mem_tail {pat : List Char} {k : Nat} {d : Char} (hk : 1 ≤ k)
    (h : (pat.drop k).head? = some d) : d ∈ pat.tail := by
  have heq : pat.drop k = pat.tail.drop (k - 1) := by
    cases pat with
    | nil => simp
    | cons p ps =>
      cases k with
      | zero => omega
      | succ m => simp
  rw [heq] at h
  exact headq_of_drop h

/-- No occurrence across an append when `b` starts with a character that the
pattern's tail avoids. -/
theorem strIncludes_append_false_head {pat a b : List Char} {c : Char}
    (hb : b.head? = some c) (hp : pat.tail.all (· ≠ c) = true)
    (ha : strIncludes a pat = false) (hbb : strIncludes b pat = false) :
    strIncludes (a ++ b) pat = false := by
  by_contra hcon
  have htrue : strIncludes (a ++ b) pat = true := by
    cases hval : strIncludes (a ++ b) pat
    · exact absurd hval hcon
    · rfl
  rcases strIncludes_straddle htrue with h | h | ⟨k, s, hk0, hklen, hsa, hdropb⟩
  · rw [h] at ha; cases ha
  · rw [h] at hbb; cases hbb
  · have hne : pat.drop k ≠ [] := by
      have : (pat.drop k).length = pat.length - k := by simp
      intro hnil
      rw [hnil] at this
      simp at this
      omega
    have hhd : b.head? = (pat.drop k).head? := pfx_head hdropb hne
    rw [hb] at hhd
    have hmem : c ∈ pat.tail := headq_drop_mem_tail hk0 hhd.symm
    have := List.all_eq_true.mp hp c hmem
    simp at this

/-- No occurrence across an append when `a` ends with a character that the
pattern avoids entirely. -/
theorem strIncludes_append_false_last {pat a b : List Char} {c : Char}
    (hc : a.getLast? = some c) (hp : pat.all (· ≠ c) = true)
    (ha : strIncludes a pat = false) (hbb : strIncludes b pat = false) :
    strIncludes (a ++ b) pat = false := by
  by_contra hcon
  have htrue : strIncludes (a ++ b) pat = true := by
    cases hval : strIncludes (a ++ b) pat
    · exact absurd hval hcon
    · rfl
  rcases strIncludes_straddle htrue with h | h | ⟨k, s, hk0, hklen, hsa, hdropb⟩
  · rw [h] at ha; cases ha
  · rw [h] at hbb; cases hbb
  · have hne : pat.take k ≠ [] := by
      have : (pat.take k).length = k := by
        simp
        omega
      intro hnil
      rw [hnil] at this
      simp at this
      omega
    have hlast : a.getLast? = (pat.take k).getLast? := by
      rw [← hsa]
      exact getLastq_append s (pat.take k) hne
    rw [hc] at hlast
    have hmem : c ∈ pat.take k := getLastq_mem hlast.symm
    have hmem' : c ∈ pat := List.take_subset k pat hmem
    have := List.all_eq_true.mp hp c hmem'
    simp at this

/-- No occurrence across an append when `a` avoids the pattern's first
character entirely. -/
theorem strIncludes_append_false_avoid {pat a b : List Char} {c : Char}
    (hp : pat.head? = some c) (ha : a.all (· ≠ c) = true)
    (hbb : strIncludes b pat = false) :
    strIncludes (a ++ b) pat = false := by
  by_contra hcon
  have htrue : strIncludes (a ++ b) pat = true := by
    cases hval : strIncludes (a ++ b) pat
    · exact absurd hval hcon
    · rfl
  have hnotina : strIncludes a pat = false := by
    cases hval : strIncludes a pat
    · rfl
    · obtain ⟨u, v, huv⟩ := (strIncludes_iff a pat).mp hval
      have hcmem : c ∈ pat := headq_mem hp
      have : c ∈ a := by
        rw [← huv]
        exact List.mem_append_left v (List.mem_append_right u hcmem)
      have := List.all_eq_true.mp ha c this
      simp at this
  rcases strIncludes_straddle htrue with h | h | ⟨k, s, hk0, hklen, hsa, hdropb⟩
  · rw [h] at hnotina; cases hnotina
  · rw [h] at hbb; cases hbb
  · have hcmem : c ∈ pat.take k := by
      cases pat with
      | nil => cases hp
      | cons p ps =>
        have : p = c := by simpa using hp
        cases k with
        | zero => omega
        | succ m => simp [this]
    have : c ∈ a := by
      rw [← hsa]
      exact List.mem_append_right s hcmem
    have := List.all_eq_true.mp ha c this
    simp at this

/-- No occurrence across an append when `a` is at least as long as the pattern
and contains the pattern's head character only at its own head. -/
theorem strIncludes_append_false_lone {pat a b : List Char} {c : Char}
    (hp : pat.head? = some c) (hat : a.tail.all (· ≠ c) = true)
    (hlen : pat.length ≤ a.length)
    (ha : strIncludes a pat = false) (hbb : strIncludes b pat = false) :
    strIncludes (a ++ b) pat = false := by
  by_contra hcon
  have htrue : strIncludes (a ++ b) pat = true := by
    cases hval : strIncludes (a ++ b) pat
    · exact absurd hval hcon
    · rfl
  rcases strIncludes_straddle htrue with h | h | ⟨k, s, hk0, hklen, hsa, hdropb⟩
  · rw [h] at ha; cases ha
  · rw [h] at hbb; cases hbb
  · have hslen : 1 ≤ s.length := by
      have := congrArg List.length hsa
      simp at this
      omega
    cases s with
    | nil => simp at hslen
    | cons x s' =>
      have htl : a.tail = s' ++ pat.take k := by
        have := congrArg List.tail hsa
        simp at this
        exact this.symm
      have hcmem : c ∈ pat.take k := by
        cases pat with
        | nil => cases hp
        | cons p ps =>
          have : p = c := by simpa using hp
          cases k with
          | zero => omega
          | succ m => simp [this]
      have : c ∈ a.tail := by
        rw [htl]
        exact List.mem_append_right s' hcmem
      have := List.all_eq_true.mp hat c this
      simp at this

/-- First occurrence of the pattern in `X ++ pat ++ R` is at `X.length`,
provided the pattern does not occur in `X` and contains its head character
nowhere else (so no occurrence can straddle the boundary). -/
theorem strIndexOf_append_self {pat X R : List Char} {c : Char}
    (hhead : pat.head? = some c) (hlone : pat.tail.all (· ≠ c) = true)
    (hX : strIncludes X pat = false) :
    strIndexOf (X ++ pat ++ R) pat = X.length := by
  apply strIndexOf_unique
  intro q hq
  by_contra hcon
  have hp : pfx pat ((X ++ pat ++ R).drop q) = true := by
    cases hval : pfx pat ((X ++ pat ++ R).drop q)
    · exact absurd hval hcon
    · rfl
  have hassoc : X ++ pat ++ R = X ++ (pat ++ R) := by simp
  rw [hassoc, dropAppendLe X (pat ++ R) q (Nat.le_of_lt hq)] at hp
  rcases pfx_append_cases hp with h1 | ⟨h1, h2⟩
  · -- the pattern would occur wholly inside X
    obtain ⟨t, ht⟩ := (pfx_iff pat (X.drop q)).mp h1
    have : X = X.take q ++ pat ++ t := by
      rw [List.append_assoc, ht, List.take_append_drop]
    rw [this] at hX
    rw [strIncludes_parts] at hX
    cases hX
  · have hklen : (X.drop q).length = X.length - q := by simp
    have hkpos : 1 ≤ X.length - q := by omega
    have hkle : X.length - q ≤ pat.length := by
      have := pfx_length_le h1
      omega
    by_cases hcase : X.length - q < pat.length
    · -- genuine straddle: self-overlap of the pattern, impossible
      have h2' : pfx (pat.drop (X.length - q)) pat = true := by
        rw [hklen] at h2
        exact pfx_of_short h2 (by simp)
      have hne : pat.drop (X.length - q) ≠ [] := by
        intro hnil
        have := congrArg List.length hnil
        simp at this
        omega
      have hhd : pat.head? = (pat.drop (X.length - q)).head? := pfx_head h2' hne
      rw [hhead] at hhd
      have hmem : c ∈ pat.tail := headq_drop_mem_tail hkpos hhd.symm
      have := List.all_eq_true.mp hlone c hmem
      simp at this
    · -- the suffix of X starting at q is exactly the pattern
      have hkeq : X.length - q = pat.length := by omega
      obtain ⟨t, ht⟩ := (pfx_iff (X.drop q) pat).mp h1
      have htlen : t.length = 0 := by
        have := congrArg List.length ht
        simp at this
        omega
      have ht0 : t = [] := List.length_eq_zero.mp htlen
      subst ht0
      have hxq : X.drop q = pat := by simpa using ht
      have : X = X.take q ++ pat ++ [] := by
        simp [← hxq, List.take_append_drop]
      rw [this] at hX
      rw [strIncludes_parts] at hX
      cases hX

/-- No occurrence of the pattern strictly before its first occurrence. -/
theorem strIncludes_take_strIndexOf (text pat : List Char) (hne : pat ≠ []) :
    strIncludes (text.take (strIndexOf text pat)) pat = false := by
  by_contra hcon
  have htrue : strIncludes (text.take (strIndexOf text pat)) pat = true := by
    cases hval : strIncludes (text.take (strIndexOf text pat)) pat
    · exact absurd hval hcon
    · rfl
  obtain ⟨u, v, huv⟩ := (strIncludes_iff _ pat).mp htrue
  have htext : text = u ++ (pat ++ (v ++ text.drop (strIndexOf text pat))) := by
    have h1 : text = text.take (strIndexOf text pat) ++ text.drop (strIndexOf text pat) :=
      (List.take_append_drop _ text).symm
    rw [← huv] at h1
    simpa using h1
  have hpfx : pfx pat (text.drop u.length) = true := by
    have : text.drop u.length = pat ++ (v ++ text.drop (strIndexOf text pat)) := by
      nth_rewrite 1 [htext]
      exact dropLenAppend u _
    rw [this]
    exact pfx_append _ _
  have hu : u.length < strIndexOf text pat := by
    have hlen := congrArg List.length huv
    have hple : 1 ≤ pat.length := by
      cases pat with
      | nil => exact absurd rfl hne
      | cons p ps => simp
    simp [List.length_take] at hlen
    omega
  have := strIndexOf_minimal text pat u.length hu
  rw [hpfx] at this
  cases this

/-- If the pattern is absent from a longer front segment, it is absent from a
shorter one. -/
theorem strIncludes_take_le {text pat : List Char} {m n : Nat} (hmn : m ≤ n)
    (h : strIncludes (text.take n) pat = false) :
    strIncludes (text.take m) pat = false := by
  by_contra hcon
  have htrue : strIncludes (text.take m) pat = true := by
    cases hval : strIncludes (text.take m) pat
    · exact absurd hval hcon
    · rfl
  have h1 : strIncludes ((text.take n).take m) pat = true := by
    rw [List.take_take, Nat.min_eq_left hmn]
    exact htrue
  have h2 := strIncludes_append_right ((text.take n).drop m) h1
  rw [List.take_append_drop] at h2
  rw [h2] at h
  cases h

/-! ### The merger: `BlogController.updateFileContent`

Source (`src/controllers/BlogController.js`, lines 97-114): builds
`fullSection` = start marker + `"\n"` + optional `"## <sectionTitle>\n\n"`
heading + new content + `"\n"` + end marker; if the current content includes
both marker literals, replaces `substring(0, indexOf(start))` ..
`substring(indexOf(end) + end.length)` with the section, otherwise appends
`"\n\n" + fullSection + "\n"`. -/

def sectionStart : List Char := "<!-- BLOG-POSTS:START -->".toList

def sectionEnd : List Char := "<!-- BLOG-POSTS:END -->".toList

/-- The optional heading piece of the template literal:
`${this.config.sectionTitle ? `## ${this.config.sectionTitle}\n\n` : ''}`
(a JavaScript string is truthy exactly when it is non-empty). -/
def headingPart (sectionTitle : List Char) : List Char :=
  if sectionTitle = [] then [] else "## ".toList ++ sectionTitle ++ "\n\n".toList

/-- `fullSection` from the source template literal. -/
def fullSection (sectionTitle newContent : List Char) : List Char :=
  sectionStart ++ "\n".toList ++ headingPart sectionTitle ++ newContent
    ++ "\n".toList ++ sectionEnd

/-- `BlogController.updateFileContent(currentContent, newContent)`; the
section title is read from the configuration, here an explicit argument. -/
def updateFileContent (sectionTitle currentContent newContent : List Char) : List Char :=
  if (strIncludes currentContent sectionStart && strIncludes currentContent sectionEnd)
      = true then
    currentContent.take (strIndexOf currentContent sectionStart)
      ++ fullSection sectionTitle newContent
      ++ currentContent.drop (strIndexOf currentContent sectionEnd + sectionEnd.length)
  else
    currentContent ++ "\n\n".toList ++ fullSection sectionTitle newContent ++ "\n".toList

/-- Everything of the section except the trailing end marker. -/
def fsInit (sectionTitle newContent : List Char) : List Char :=
  sectionStart ++ "\n".toList ++ headingPart sectionTitle ++ newContent ++ "\n".toList

theorem fullSection_eq (t b : List Char) : fullSection t b = fsInit t b ++ sectionEnd := rfl

theorem headq_append_left (l r : List Char) (h : l ≠ []) : (l ++ r).head? = l.head? := by
  cases l with
  | nil => exact absurd rfl h
  | cons a l => rfl

theorem mergeBranchBoth {doc : List Char} (t b : List Char)
    (hS : strIncludes doc sectionStart = true) (hE : strIncludes doc sectionEnd = true) :
    updateFileContent t doc b
      = doc.take (strIndexOf doc sectionStart) ++ fullSection t b
        ++ doc.drop (strIndexOf doc sectionEnd + sectionEnd.length) := by
  unfold updateFileContent
  rw [if_pos (by rw [hS, hE]; rfl)]

theorem mergeBranchNone {doc : List Char} (t b : List Char)
    (h : (strIncludes doc sectionStart && strIncludes doc sectionEnd) = false) :
    updateFileContent t doc b
      = doc ++ "\n\n".toList ++ fullSection t b ++ "\n".toList := by
  unfold updateFileContent
  rw [if_neg (by rw [h]; exact Bool.false_ne_true)]

/-! Absence of the end marker from the pieces of a freshly built section. -/

theorem sEnd_not_in_block_nl {b : List Char} (hb : strIncludes b sectionEnd = false) :
    strIncludes (b ++ "\n".toList) sectionEnd = false := by
  exact strIncludes_append_false_head (c := '\n') (by decide) (by decide) hb (by decide)

theorem sEnd_not_in_heading {t : List Char} (ht : strIncludes t sectionEnd = false) :
    strIncludes (headingPart t) sectionEnd = false := by
  unfold headingPart
  by_cases h : t = []
  · rw [if_pos h]; decide
  · rw [if_neg h]
    have h1 : strIncludes (t ++ "\n\n".toList) sectionEnd = false :=
      strIncludes_append_false_head (c := '\n') (by decide) (by decide) ht (by decide)
    have h2 : "## ".toList ++ t ++ "\n\n".toList
        = "## ".toList ++ (t ++ "\n\n".toList) := by simp
    rw [h2]
    exact strIncludes_append_false_avoid (c := '<') (by decide) (by decide) h1

theorem sEnd_not_in_mid {t b : List Char}
    (ht : strIncludes t sectionEnd = false) (hb : strIncludes b sectionEnd = false) :
    strIncludes (headingPart t ++ (b ++ "\n".toList)) sectionEnd = false := by
  by_cases h : t = []
  · rw [h]
    have : headingPart [] = [] := rfl
    rw [this, List.nil_append]
    exact sEnd_not_in_block_nl hb
  · have hlast : (headingPart t).getLast? = some '\n' := by
      unfold headingPart
      rw [if_neg h]
      have e : "## ".toList ++ t ++ "\n\n".toList
          = ("## ".toList ++ t ++ ['\n']) ++ ['\n'] := by
        have : "\n\n".toList = ['\n'] ++ ['\n'] := rfl
        rw [this]
        simp
      rw [e, getLastq_append _ _ (by simp)]
      rfl
    exact strIncludes_append_false_last hlast (by decide) (sEnd_not_in_heading ht)
      (sEnd_not_in_block_nl hb)

theorem sEnd_not_in_fsInit {t b : List Char}
    (ht : strIncludes t sectionEnd = false) (hb : strIncludes b sectionEnd = false) :
    strIncludes (fsInit t b) sectionEnd = false := by
  have e : fsInit t b
      = sectionStart ++ ("\n".toList ++ (headingPart t ++ (b ++ "\n".toList))) := by
    unfold fsInit
    simp
  rw [e]
  have h1 : strIncludes ("\n".toList ++ (headingPart t ++ (b ++ "\n".toList)))
      sectionEnd = false := by
    exact strIncludes_append_false_last (c := '\n') rfl (by decide) (by decide)
      (sEnd_not_in_mid ht hb)
  exact strIncludes_append_false_head (c := '\n') rfl (by decide) (by decide) h1

/-- The central replay lemma: merging into a document of the shape
`before ++ fullSection ++ after`, where `before` contains neither marker and
block/title contain no end marker, reproduces the document unchanged. -/
theorem merge_of_parts {t b before after : List Char}
    (hbS : strIncludes before sectionStart = false)
    (hbE : strIncludes before sectionEnd = false)
    (htitle : strIncludes t sectionEnd = false)
    (hblock : strIncludes b sectionEnd = false) :
    updateFileContent t (before ++ fullSection t b ++ after) b
      = before ++ fullSection t b ++ after := by
  have e1 : before ++ fullSection t b ++ after
      = before ++ sectionStart
        ++ ("\n".toList ++ (headingPart t ++ (b ++ ("\n".toList
            ++ (sectionEnd ++ after))))) := by
    unfold fullSection
    simp
  have e2 : before ++ fullSection t b ++ after
      = (before ++ fsInit t b) ++ sectionEnd ++ after := by
    rw [fullSection_eq]
    simp
  have e3 : before ++ fullSection t b ++ after
      = before ++ (fullSection t b ++ after) := by simp
  have hS : strIncludes (before ++ fullSection t b ++ after) sectionStart = true := by
    rw [e1]; exact strIncludes_parts _ _ _
  have hE : strIncludes (before ++ fullSection t b ++ after) sectionEnd = true := by
    rw [e2]; exact strIncludes_parts _ _ _
  have hfshead : (fsInit t b).head? = some '<' := by
    have e : fsInit t b
        = sectionStart ++ ("\n".toList ++ headingPart t ++ b ++ "\n".toList) := by
      unfold fsInit
      simp
    rw [e, headq_append_left _ _ (by decide)]
    rfl
  have hXE : strIncludes (before ++ fsInit t b) sectionEnd = false := by
    apply strIncludes_append_false_head (c := '<')
    · exact hfshead
    · decide
    · exact hbE
    · exact sEnd_not_in_fsInit htitle hblock
  have hidxS : strIndexOf (before ++ fullSection t b ++ after) sectionStart
      = before.length := by
    rw [e1]
    exact strIndexOf_append_self (c := '<') rfl (by decide) hbS
  have hidxE : strIndexOf (before ++ fullSection t b ++ after) sectionEnd
      = (before ++ fsInit t b).length := by
    rw [e2]
    exact strIndexOf_append_self (c := '<') rfl (by decide) hXE
  rw [mergeBranchBoth t b hS hE, hidxS, hidxE]
  have htake : (before ++ fullSection t b ++ after).take before.length = before := by
    rw [e3]; exact takeLenAppend before _
  have hdrop : (before ++ fullSection t b ++ after).drop
      ((before ++ fsInit t b).length + sectionEnd.length) = after := by
    have e4 : before ++ fullSection t b ++ after
        = ((before ++ fsInit t b) ++ sectionEnd) ++ after := by
      rw [fullSection_eq]; simp
    have e5 : (before ++ fsInit t b).length + sectionEnd.length
        = ((before ++ fsInit t b) ++ sectionEnd).length := by
      simp [Nat.add_assoc]
    rw [e4, e5]
    exact dropLenAppend _ after
  rw [htake, hdrop]

/-! ### Claim C2: idempotence of the merge -/

/-- C2 counterexample: the claim "merge is idempotent for every starting
document" is false.  A document consisting of the end marker alone is merged
by appending (the start marker is absent), after which both markers are
present with the end marker first, and the second merge garbles the text. -/
theorem c2_counterexample :
    updateFileContent [] (updateFileContent [] sectionEnd ['b']) ['b']
      ≠ updateFileContent [] sectionEnd ['b'] := by decide

/-- C2 (amended): the merge is idempotent for every rendered block and section
title containing no end-marker occurrence, on every starting document that
either contains neither marker literal or contains both with the first start
marker strictly before the first end marker. -/
theorem c2_merge_idempotent (t doc b : List Char)
    (htitle : strIncludes t sectionEnd = false)
    (hblock : strIncludes b sectionEnd = false)
    (hdoc : (strIncludes doc sectionStart = false ∧ strIncludes doc sectionEnd = false)
      ∨ (strIncludes doc sectionStart = true ∧ strIncludes doc sectionEnd = true ∧
          strIndexOf doc sectionStart < strIndexOf doc sectionEnd)) :
    updateFileContent t (updateFileContent t doc b) b = updateFileContent t doc b := by
  rcases hdoc with ⟨hS0, hE0⟩ | ⟨hS0, hE0, hlt⟩
  · have h1 : updateFileContent t doc b
        = doc ++ "\n\n".toList ++ fullSection t b ++ "\n".toList :=
      mergeBranchNone t b (by rw [hS0]; rfl)
    rw [h1]
    have e : doc ++ "\n\n".toList ++ fullSection t b ++ "\n".toList
        = (doc ++ "\n\n".toList) ++ fullSection t b ++ "\n".toList := by simp
    rw [e]
    apply merge_of_parts
    · exact strIncludes_append_false_head (c := '\n') (by decide) (by decide) hS0 (by decide)
    · exact strIncludes_append_false_head (c := '\n') (by decide) (by decide) hE0 (by decide)
    · exact htitle
    · exact hblock
  · rw [mergeBranchBoth t b hS0 hE0]
    apply merge_of_parts
    · exact strIncludes_take_strIndexOf doc sectionStart (by decide)
    · exact strIncludes_take_le (Nat.le_of_lt hlt)
        (strIncludes_take_strIndexOf doc sectionEnd (by decide))
    · exact htitle
    · exact hblock

theorem c2_merge_idempotent_witness :
    (strIncludes "T".toList sectionEnd = false
      ∧ strIncludes "B".toList sectionEnd = false
      ∧ strIncludes "hello".toList sectionStart = false
      ∧ strIncludes "hello".toList sectionEnd = false) ∧
    updateFileContent "T".toList
        (updateFileContent "T".toList "hello".toList "B".toList) "B".toList
      = updateFileContent "T".toList "hello".toList "B".toList :=
  ⟨⟨by decide, by decide, by decide, by decide⟩,
    c2_merge_idempotent "T".toList "hello".toList "B".toList (by decide) (by decide)
      (Or.inl ⟨by decide, by decide⟩)⟩

/-! ### Claim C3: marker preservation -/

/-- C3 counterexample: the claim quantifies over arbitrary `old` text between
the markers, but when `old` itself contains an end-marker occurrence the code
cuts at the *first* end marker and the leftover is not `X ++ section ++ Y`.
Instance: `X = []`, `old = sectionEnd`, `Y = []`. -/
theorem c3_counterexample :
    (strIncludes ([] : List Char) sectionStart = false
      ∧ strIncludes ([] : List Char) sectionEnd = false) ∧
    updateFileContent []
        (([] : List Char) ++ sectionStart ++ sectionEnd ++ sectionEnd ++ ([] : List Char))
        ['b']
      ≠ ([] : List Char) ++ fullSection [] ['b'] ++ ([] : List Char) :=
  ⟨⟨by decide, by decide⟩, by decide⟩

/-- C3 (amended): for a document `X ++ start ++ old ++ end ++ Y` where `X` and
`Y` contain no marker occurrence and `old` contains no end-marker occurrence,
the merge yields exactly `X ++ fullSection ++ Y`. -/
theorem c3_marker_preservation (t b X old Y : List Char)
    (hXS : strIncludes X sectionStart = false)
    (hXE : strIncludes X sectionEnd = false)
    (hYS : strIncludes Y sectionStart = false)
    (hYE : strIncludes Y sectionEnd = false)
    (hold : strIncludes old sectionEnd = false) :
    updateFileContent t (X ++ sectionStart ++ old ++ sectionEnd ++ Y) b
      = X ++ fullSection t b ++ Y := by
  have e1 : X ++ sectionStart ++ old ++ sectionEnd ++ Y
      = X ++ sectionStart ++ (old ++ (sectionEnd ++ Y)) := by simp
  have e2 : X ++ sectionStart ++ old ++ sectionEnd ++ Y
      = (X ++ (sectionStart ++ old)) ++ sectionEnd ++ Y := by simp
  have hS : strIncludes (X ++ sectionStart ++ old ++ sectionEnd ++ Y) sectionStart
      = true := by
    rw [e1]; exact strIncludes_parts _ _ _
  have hE : strIncludes (X ++ sectionStart ++ old ++ sectionEnd ++ Y) sectionEnd
      = true := by
    rw [e2]; exact strIncludes_parts _ _ _
  have hXSold : strIncludes (X ++ (sectionStart ++ old)) sectionEnd = false := by
    apply strIncludes_append_false_head (c := '<')
    · rw [headq_append_left _ _ (by decide)]; decide
    · decide
    · exact hXE
    · exact strIncludes_append_false_lone (c := '<') (by decide) (by decide) (by decide)
        (by decide) hold
  have hidxS : strIndexOf (X ++ sectionStart ++ old ++ sectionEnd ++ Y) sectionStart
      = X.length := by
    rw [e1]; exact strIndexOf_append_self (c := '<') (by decide) (by decide) hXS
  have hidxE : strIndexOf (X ++ sectionStart ++ old ++ sectionEnd ++ Y) sectionEnd
      = (X ++ (sectionStart ++ old)).length := by
    rw [e2]; exact strIndexOf_append_self (c := '<') (by decide) (by decide) hXSold
  rw [mergeBranchBoth t b hS hE, hidxS, hidxE]
  have htake : (X ++ sectionStart ++ old ++ sectionEnd ++ Y).take X.length = X := by
    have e3 : X ++ sectionStart ++ old ++ sectionEnd ++ Y
        = X ++ (sectionStart ++ (old ++ (sectionEnd ++ Y))) := by simp
    rw [e3]; exact takeLenAppend X _
  have hdrop : (X ++ sectionStart ++ old ++ sectionEnd ++ Y).drop
      ((X ++ (sectionStart ++ old)).length + sectionEnd.length) = Y := by
    have e4 : X ++ sectionStart ++ old ++ sectionEnd ++ Y
        = ((X ++ (sectionStart ++ old)) ++ sectionEnd) ++ Y := by simp
    have e5 : (X ++ (sectionStart ++ old)).length + sectionEnd.length
        = ((X ++ (sectionStart ++ old)) ++ sectionEnd).length := by
      simp
      omega
    rw [e4, e5]; exact dropLenAppend _ Y
  rw [htake, hdrop]

theorem c3_marker_preservation_witness :
    (strIncludes "A ".toList sectionStart = false
      ∧ strIncludes "A ".toList sectionEnd = false
      ∧ strIncludes " Z".toList sectionStart = false
      ∧ strIncludes " Z".toList sectionEnd = false
      ∧ strIncludes "old".toList sectionEnd = false) ∧
    updateFileContent "T".toList
        ("A ".toList ++ sectionStart ++ "old".toList ++ sectionEnd ++ " Z".toList)
        "B".toList
      = "A ".toList ++ fullSection "T".toList "B".toList ++ " Z".toList :=
  ⟨⟨by decide, by decide, by decide, by decide, by decide⟩,
    c3_marker_preservation "T".toList "B".toList "A ".toList "old".toList " Z".toList
      (by decide) (by decide) (by decide) (by decide) (by decide)⟩

/-! ### Claim C4: branch selection -/

/-- C4 counterexample: per the claim, a document in which no end marker
follows the first start marker should be handled by append-mode; the code
instead takes the replacement branch whenever both literals are present in
any order.  Instance: `doc = sectionEnd ++ sectionStart`. -/
theorem c4_counterexample :
    strIncludes ((sectionEnd ++ sectionStart).drop
        (strIndexOf (sectionEnd ++ sectionStart) sectionStart + sectionStart.length))
      sectionEnd = false ∧
    updateFileContent [] (sectionEnd ++ sectionStart) ['b']
      ≠ (sectionEnd ++ sectionStart) ++ "\n\n".toList ++ fullSection [] ['b']
        ++ "\n".toList :=
  ⟨by decide, by decide⟩

/-- C4 (amended): the merge takes the replacement branch exactly when both
marker literals occur anywhere in the existing text (in any relative order);
otherwise it appends two newlines, the full section and a trailing newline,
leaving the existing text as an unchanged prefix. -/
theorem c4_branch_selection (t doc b : List Char) :
    ((strIncludes doc sectionStart = true ∧ strIncludes doc sectionEnd = true) →
      updateFileContent t doc b
        = doc.take (strIndexOf doc sectionStart) ++ fullSection t b
          ++ doc.drop (strIndexOf doc sectionEnd + sectionEnd.length)) ∧
    (¬(strIncludes doc sectionStart = true ∧ strIncludes doc sectionEnd = true) →
      updateFileContent t doc b
        = doc ++ "\n\n".toList ++ fullSection t b ++ "\n".toList) := by
  constructor
  · rintro ⟨hS, hE⟩
    exact mergeBranchBoth t b hS hE
  · intro h
    apply mergeBranchNone
    cases hS : strIncludes doc sectionStart
    · rfl
    · cases hE : strIncludes doc sectionEnd
      · rfl
      · exact absurd ⟨hS, hE⟩ h

theorem c4_branch_selection_witness :
    updateFileContent [] "x".toList ['b']
      = "x".toList ++ "\n\n".toList ++ fullSection [] ['b'] ++ "\n".toList ∧
    updateFileContent [] (sectionStart ++ sectionEnd) ['b']
      = (sectionStart ++ sectionEnd).take
          (strIndexOf (sectionStart ++ sectionEnd) sectionStart)
        ++ fullSection [] ['b']
        ++ (sectionStart ++ sectionEnd).drop
          (strIndexOf (sectionStart ++ sectionEnd) sectionEnd + sectionEnd.length) :=
  ⟨(c4_branch_selection [] "x".toList ['b']).2 (by decide),
    (c4_branch_selection [] (sectionStart ++ sectionEnd) ['b']).1 ⟨by decide, by decide⟩⟩

/-! ### Claim C9: the output always carries a complete section -/

/-- C9: every merge output contains the complete newly built section as one
contiguous substring (start marker, optional heading, block, end marker, with
the start marker first and the end marker last), so a subsequent merge finds
both markers and its replacement-branch condition evaluates to true. -/
theorem c9_section_invariant (t doc b : List Char) :
    (∃ u v, updateFileContent t doc b = u ++ fullSection t b ++ v) ∧
    (∃ mid, fullSection t b = sectionStart ++ mid ++ sectionEnd) ∧
    strIncludes (updateFileContent t doc b) sectionStart = true ∧
    strIncludes (updateFileContent t doc b) sectionEnd = true ∧
    (strIncludes (updateFileContent t doc b) sectionStart
      && strIncludes (updateFileContent t doc b) sectionEnd) = true := by
  have hparts : ∃ u v, updateFileContent t doc b = u ++ fullSection t b ++ v := by
    cases hc : (strIncludes doc sectionStart && strIncludes doc sectionEnd)
    · refine ⟨doc ++ "\n\n".toList, "\n".toList, ?_⟩
      rw [mergeBranchNone t b hc]
    · have hS : strIncludes doc sectionStart = true := by
        cases h1 : strIncludes doc sectionStart
        · rw [h1] at hc; simp at hc
        · rfl
      have hE : strIncludes doc sectionEnd = true := by
        cases h1 : strIncludes doc sectionEnd
        · rw [h1] at hc; simp at hc
        · rfl
      exact ⟨doc.take (strIndexOf doc sectionStart),
        doc.drop (strIndexOf doc sectionEnd + sectionEnd.length),
        mergeBranchBoth t b hS hE⟩
  obtain ⟨u, v, he⟩ := hparts
  have hS : strIncludes (updateFileContent t doc b) sectionStart = true := by
    rw [he]
    have e : u ++ fullSection t b ++ v
        = u ++ sectionStart ++ ("\n".toList ++ (headingPart t ++ (b ++ ("\n".toList
            ++ (sectionEnd ++ v))))) := by
      unfold fullSection
      simp
    rw [e]
    exact strIncludes_parts _ _ _
  have hE : strIncludes (updateFileContent t doc b) sectionEnd = true := by
    rw [he]
    have e : u ++ fullSection t b ++ v = (u ++ fsInit t b) ++ sectionEnd ++ v := by
      rw [fullSection_eq]
      simp
    rw [e]
    exact strIncludes_parts _ _ _
  refine ⟨⟨u, v, he⟩, ?_, hS, hE, by simp [hS, hE]⟩
  refine ⟨"\n".toList ++ headingPart t ++ b ++ "\n".toList, ?_⟩
  unfold fullSection
  simp

/-! ### The formatter: `TemplateService` and `TemplateHelper.escapeHtml`

Post records carry the fields the generators read; config carries the options
they read.  JavaScript numbers in the config are validated integers, modelled
as `Nat`; `${n}` interpolation is `toString`. -/

structure Post where
  title : List Char
  description : List Char
  url : List Char
  coverImage : List Char
  formattedDate : List Char
  deriving DecidableEq

structure Config where
  displayFormat : List Char
  cardWidth : Nat
  imageWidth : Nat
  imageHeight : Nat
  descriptionLength : Nat
  customCss : List Char
  noPostsMessage : List Char
  deriving DecidableEq

/-- Whitespace for `String.prototype.trim` (the characters the templates can
produce at their ends). -/
def isJsSpace (c : Char) : Bool :=
  decide (c = ' ') || decide (c = '\t') || decide (c = '\n') || decide (c = '\r')

/-- JavaScript `String.prototype.trim`. -/
def jsTrim (s : List Char) : List Char :=
  ((s.dropWhile isJsSpace).reverse.dropWhile isJsSpace).reverse

/-- `TemplateHelper.escapeHtml`: replaces the five HTML special characters by
entities (the regex-replace in the source is a per-character substitution). -/
def escapeHtml (text : List Char) : List Char :=
  (text.map (fun c =>
    if c = '&' then "&amp;".toList
    else if c = '<' then "&lt;".toList
    else if c = '>' then "&gt;".toList
    else if c = '"' then "&quot;".toList
    else if c = '\'' then "&#39;".toList
    else [c])).flatten

def placeholderImage : List Char :=
  "https://via.placeholder.com/400x200/4F46E5/FFFFFF?text=Blog+Post".toList

/-- `TemplateService.processPost`: truncate an over-long description (a
JavaScript string is truthy when non-empty) and substitute the placeholder
cover image when the cover image is falsy (empty). -/
def processPost (post : Post) (config : Config) : Post :=
  { post with
    description :=
      if post.description ≠ [] ∧ config.descriptionLength < post.description.length
      then post.description.take config.descriptionLength ++ "...".toList
      else post.description,
    coverImage := if post.coverImage = [] then placeholderImage else post.coverImage }

/-- `TemplateService.generateCards` (the `card` layout). -/
def generateCards (posts : List Post) (config : Config) : List Char :=
  let cards := posts.map (fun post =>
    jsTrim (
      "\n<div style=\"border: 1px solid #e1e5e9; border-radius: 8px; padding: 16px; margin: 16px 0; max-width: ".toList
        ++ (toString config.cardWidth).toList ++ "px; ".toList ++ config.customCss
        ++ "\">\n  <img src=\"".toList ++ post.coverImage
        ++ "\" alt=\"".toList ++ post.title
        ++ "\" style=\"width: 100%; height: 200px; object-fit: cover; border-radius: 6px; margin-bottom: 12px;\" />\n  <h3 style=\"margin: 0 0 8px 0; font-size: 18px;\">\n    <a href=\"".toList
        ++ post.url
        ++ "\" style=\"text-decoration: none; color: #1a1a1a;\">".toList ++ post.title
        ++ "</a>\n  </h3>\n  <p style=\"margin: 0 0 8px 0; color: #6b7280; font-size: 14px;\">".toList
        ++ post.formattedDate
        ++ "</p>\n  <p style=\"margin: 0; color: #4b5563; font-size: 14px; line-height: 1.5;\">".toList
        ++ post.description
        ++ "</p>\n</div>".toList))
  List.intercalate "\n\n".toList cards

/-- `TemplateService.generateStackedCards` (`stacked-left` / `stacked-right`). -/
def generateStackedCards (posts : List Post) (config : Config)
    (imagePosition : List Char) : List Char :=
  let cards := posts.map (fun post =>
    let imageElement :=
      "<img src=\"".toList ++ post.coverImage ++ "\" alt=\"".toList ++ post.title
        ++ "\" style=\"width: ".toList ++ (toString config.imageWidth).toList
        ++ "px; height: ".toList ++ (toString config.imageHeight).toList
        ++ "px; object-fit: cover; border-radius: 6px;\" />".toList
    let contentElement := jsTrim (
      "\n<div style=\"flex: 1;\">\n  <h3 style=\"margin: 0 0 4px 0; font-size: 16px;\">\n    <a href=\"".toList
        ++ post.url ++ "\" style=\"text-decoration: none; color: #1a1a1a;\">".toList
        ++ post.title
        ++ "</a>\n  </h3>\n  <p style=\"margin: 0 0 4px 0; color: #6b7280; font-size: 12px;\">".toList
        ++ post.formattedDate
        ++ "</p>\n  <p style=\"margin: 0; color: #4b5563; font-size: 13px; line-height: 1.4;\">".toList
        ++ post.description
        ++ "</p>\n</div>".toList)
    let flexDirection :=
      if imagePosition = "left".toList then "row".toList else "row-reverse".toList
    let gap :=
      if imagePosition = "left".toList then "0 12px 0 0".toList else "0 0 0 12px".toList
    jsTrim (
      "\n<div style=\"display: flex; flex-direction: ".toList ++ flexDirection
        ++ "; align-items: flex-start; padding: 12px; border: 1px solid #e1e5e9; border-radius: 8px; margin: 8px 0; ".toList
        ++ config.customCss
        ++ "\">\n  <div style=\"margin: ".toList ++ gap
        ++ ";\">\n    ".toList ++ imageElement
        ++ "\n  </div>\n  ".toList ++ contentElement
        ++ "\n</div>".toList))
  List.intercalate "\n\n".toList cards

/-- `TemplateService.generateList` (the `list` layout, pure Markdown). -/
def generateList (posts : List Post) (config : Config) : List Char :=
  let listItems := posts.map (fun post =>
    "- **".toList ++ post.formattedDate ++ "**: [".toList ++ post.title
      ++ "](".toList ++ post.url ++ ")".toList)
  List.intercalate "\n".toList listItems

/-- `TemplateService.generateTable` (the `table` layout).  The source
interpolates the `rows` array into the template literal, which joins the
elements with a comma (JavaScript array-to-string). -/
def generateTable (posts : List Post) (config : Config) : List Char :=
  let tableStyle :=
    "border-collapse: collapse; width: 100%; margin: 16px 0; ".toList ++ config.customCss
  let thStyle :=
    "border: 1px solid #e1e5e9; padding: 12px; text-align: left; background-color: #f8f9fa; font-weight: 600;".toList
  let tdStyle := "border: 1px solid #e1e5e9; padding: 12px; vertical-align: top;".toList
  let headerRow :=
    "<tr>\n        <th style=\"".toList ++ thStyle
      ++ "\">Date</th>\n        <th style=\"".toList ++ thStyle
      ++ "\">Image</th>\n        <th style=\"".toList ++ thStyle
      ++ "\">Title & Description</th>\n      </tr>".toList
  let rows := posts.map (fun post =>
    let imageCell :=
      "<img src=\"".toList ++ post.coverImage ++ "\" alt=\"".toList ++ post.title
        ++ "\" style=\"width: ".toList ++ (toString config.imageWidth).toList
        ++ "px; height: ".toList ++ (toString config.imageHeight).toList
        ++ "px; object-fit: cover; border-radius: 4px;\" />".toList
    let titleCell :=
      "<a href=\"".toList ++ post.url
        ++ "\" style=\"text-decoration: none; color: #1a1a1a; font-weight: 600;\">".toList
        ++ post.title
        ++ "</a><br/><span style=\"color: #6b7280; font-size: 14px;\">".toList
        ++ post.description ++ "</span>".toList
    "<tr>\n          <td style=\"".toList ++ tdStyle ++ "\">".toList
      ++ post.formattedDate
      ++ "</td>\n          <td style=\"".toList ++ tdStyle ++ "\">".toList
      ++ imageCell
      ++ "</td>\n          <td style=\"".toList ++ tdStyle ++ "\">".toList
      ++ titleCell
      ++ "</td>\n        </tr>".toList)
  jsTrim ("<table style=\"".toList ++ tableStyle
    ++ "\">\n  <thead>\n    ".toList ++ headerRow
    ++ "\n  </thead>\n  <tbody>\n    ".toList ++ List.intercalate ",".toList rows
    ++ "\n  </tbody>\n</table>".toList)

/-- The `switch (config.displayFormat)` dispatch of
`TemplateService.generateContent` on already-processed posts; an unknown
format falls back to `stacked-left`. -/
def dispatchFormat (posts : List Post) (config : Config) : List Char :=
  if config.displayFormat = "card".toList then generateCards posts config
  else if config.displayFormat = "stacked-left".toList then
    generateStackedCards posts config "left".toList
  else if config.displayFormat = "stacked-right".toList then
    generateStackedCards posts config "right".toList
  else if config.displayFormat = "list".toList then generateList posts config
  else if config.displayFormat = "table".toList then generateTable posts config
  else generateStackedCards posts config "left".toList

/-- `TemplateService.generateContent`: empty input yields
`config.noPostsMessage || 'No blog posts found.'` (JavaScript `||` falls back
on an empty string); otherwise each post is processed and the layout
dispatched. -/
def generateContent (posts : List Post) (config : Config) : List Char :=
  if posts = [] then
    (if config.noPostsMessage = [] then "No blog posts found.".toList
     else config.noPostsMessage)
  else
    dispatchFormat (posts.map (fun post => processPost post config)) config

/-! ### Claim C1: the HTML layouts do not escape content-derived text -/

/-- A post whose title carries a script tag, as fetched. -/
def scriptPost : Post :=
  { title := "<script>alert(1)</script>".toList
    description := "desc".toList
    url := "https://e.x/p".toList
    coverImage := "https://e.x/c.png".toList
    formattedDate := "Jan 01, 2026".toList }

def cardConfig : Config :=
  { displayFormat := "card".toList
    cardWidth := 500
    imageWidth := 100
    imageHeight := 100
    descriptionLength := 200
    customCss := []
    noPostsMessage := "No blog posts found.".toList }

set_option maxRecDepth 100000 in
/-- C1: the layout generators interpolate the post title verbatim —
`escapeHtml` exists in `TemplateHelper` but is never applied — so the `card`
layout output contains a raw `<script>` substring and no escaped
`&lt;script&gt;` entity sequence. -/
theorem c1_unescaped_script :
    strIncludes (generateContent [scriptPost] cardConfig) "<script>".toList = true ∧
    strIncludes (generateContent [scriptPost] cardConfig) "&lt;script&gt;".toList = false
      ∧ escapeHtml "<script>".toList = "&lt;script&gt;".toList :=
  ⟨by decide, by decide, by decide⟩

/-! ### Claim C5: rendering the empty post list -/

/-- C5 counterexample: with an empty-string `noPostsMessage` the source's
`config.noPostsMessage || 'No blog posts found.'` falls back to the default,
so `render([], config)` is not the configured message verbatim. -/
theorem c5_counterexample :
    generateContent [] (Config.mk "list".toList 500 100 100 200 [] [])
        ≠ (Config.mk "list".toList 500 100 100 200 [] []).noPostsMessage ∧
    generateContent [] (Config.mk "list".toList 500 100 100 200 [] [])
        = "No blog posts found.".toList :=
  ⟨by decide, by decide⟩

/-- C5 (amended): for every config whose `noPostsMessage` is non-empty,
rendering the empty post list returns the configured message verbatim. -/
theorem c5_empty_render (config : Config) (h : config.noPostsMessage ≠ []) :
    generateContent [] config = config.noPostsMessage := by
  unfold generateContent
  rw [if_pos rfl, if_neg h]

theorem c5_empty_render_witness :
    ("hi".toList : List Char) ≠ [] ∧
    generateContent [] (Config.mk "list".toList 500 100 100 200 [] "hi".toList)
      = "hi".toList :=
  ⟨by decide, c5_empty_render (Config.mk "list".toList 500 100 100 200 [] "hi".toList)
    (by decide)⟩

/-! ### Claim C7: description truncation -/

/-- C7: a description strictly longer than `descriptionLength` is pre-processed
to exactly its first `descriptionLength` characters followed by `"..."`; a
description at or under the limit is left unchanged. -/
theorem c7_truncation (post : Post) (config : Config) :
    (config.descriptionLength < post.description.length →
      (processPost post config).description
        = post.description.take config.descriptionLength ++ "...".toList) ∧
    (post.description.length ≤ config.descriptionLength →
      (processPost post config).description = post.description) := by
  constructor
  · intro h
    have hne : post.description ≠ [] := by
      intro h0
      rw [h0] at h
      simp at h
    simp only [processPost]
    rw [if_pos ⟨hne, h⟩]
  · intro h
    simp only [processPost]
    rw [if_neg]
    rintro ⟨-, hlt⟩
    omega

theorem c7_truncation_witness :
    ((3 : Nat) < ("abcde".toList : List Char).length ∧
      (processPost (Post.mk "t".toList "abcde".toList "u".toList "c".toList "d".toList)
          (Config.mk "list".toList 500 100 100 3 [] [])).description
        = "abcde".toList.take 3 ++ "...".toList) ∧
    (("ab".toList : List Char).length ≤ (3 : Nat) ∧
      (processPost (Post.mk "t".toList "ab".toList "u".toList "c".toList "d".toList)
          (Config.mk "list".toList 500 100 100 3 [] [])).description
        = "ab".toList) :=
  ⟨⟨by decide,
    (c7_truncation (Post.mk "t".toList "abcde".toList "u".toList "c".toList "d".toList)
      (Config.mk "list".toList 500 100 100 3 [] [])).1 (by decide)⟩,
   ⟨by decide,
    (c7_truncation (Post.mk "t".toList "ab".toList "u".toList "c".toList "d".toList)
      (Config.mk "list".toList 500 100 100 3 [] [])).2 (by decide)⟩⟩

/-! ### Claim C6: `ValidationHelper.validatePostCount`

The argument is an arbitrary JavaScript value: a finite number (modelled as a
rational — every finite double is rational and the checks only compare
against 1 and 12 and test integrality), `NaN`, or a non-number.  The source
checks, in order: `typeof !== 'number' || isNaN` , `< 1`, `> 12`,
`!Number.isInteger`. -/

inductive JSValue where
  | number (q : ℚ)
  | nanValue
  | nonNumber
  deriving DecidableEq

def validatePostCount : JSValue → Except (List Char) Unit
  | JSValue.nonNumber => Except.error "Post count must be a valid number".toList
  | JSValue.nanValue => Except.error "Post count must be a valid number".toList
  | JSValue.number q =>
    if q < 1 then Except.error "Post count must be at least 1".toList
    else if 12 < q then Except.error "Post count cannot exceed 12".toList
    else if q.den ≠ 1 then Except.error "Post count must be an integer".toList
    else Except.ok ()

theorem c6_ok_iff (v : JSValue) :
    validatePostCount v = Except.ok () ↔
      ∃ n : ℤ, v = JSValue.number (n : ℚ) ∧ 1 ≤ n ∧ n ≤ 12 := by
  cases v with
  | nonNumber => simp [validatePostCount]
  | nanValue => simp [validatePostCount]
  | number q =>
    simp only [validatePostCount]
    split_ifs with h1 h2 h3
    · simp only [false_iff]
      rintro ⟨n, hn, hn1, hn12⟩
      have hq : q = (n : ℚ) := by injection hn
      rw [hq] at h1
      have hge : (1 : ℚ) ≤ (n : ℚ) := by exact_mod_cast hn1
      exact absurd h1 (not_lt.mpr hge)
    · simp only [false_iff]
      rintro ⟨n, hn, hn1, hn12⟩
      have hq : q = (n : ℚ) := by injection hn
      rw [hq] at h2
      have hle : ((n : ℚ) : ℚ) ≤ (12 : ℚ) := by exact_mod_cast hn12
      exact absurd h2 (not_lt.mpr hle)
    · simp only [false_iff]
      rintro ⟨n, hn, hn1, hn12⟩
      have hq : q = (n : ℚ) := by injection hn
      rw [hq] at h3
      exact h3 (Rat.den_intCast n)
    · simp only [true_iff]
      have hden : q.den = 1 := not_not.mp h3
      have hq : (q.num : ℚ) = q := Rat.coe_int_num_of_den_eq_one hden
      refine ⟨q.num, by rw [hq], ?_, ?_⟩
      · have : (1 : ℚ) ≤ q := not_lt.mp h1
        rw [← hq] at this
        exact_mod_cast this
      · have : q ≤ (12 : ℚ) := not_lt.mp h2
        rw [← hq] at this
        exact_mod_cast this

/-- C6: post-count validation succeeds exactly on integers in the closed range
`[1, 12]`; every other value (out of range, fractional, `NaN`, non-number)
produces an error whose message names the violated constraint. -/
theorem c6_validate_post_count (v : JSValue) :
    (validatePostCount v = Except.ok () ↔
      ∃ n : ℤ, v = JSValue.number (n : ℚ) ∧ 1 ≤ n ∧ n ≤ 12) ∧
    (validatePostCount v ≠ Except.ok () →
      validatePostCount v = Except.error "Post count must be a valid number".toList ∨
      validatePostCount v = Except.error "Post count must be at least 1".toList ∨
      validatePostCount v = Except.error "Post count cannot exceed 12".toList ∨
      validatePostCount v = Except.error "Post count must be an integer".toList) := by
  refine ⟨?_, ?_⟩
  case _ => exact c6_ok_iff v
  case _ =>
    intro hne
    cases v with
    | nonNumber => left; rfl
    | nanValue => left; rfl
    | number q =>
      simp only [validatePostCount] at hne ⊢
      split_ifs at hne ⊢ with h1 h2 h3
      · right; left; rfl
      · right; right; left; rfl
      · right; right; right; rfl
      · exact absurd rfl hne

theorem c6_validate_post_count_witness :
    validatePostCount (JSValue.number ((5 : ℤ) : ℚ)) = Except.ok () ∧
    (validatePostCount (JSValue.number (0 : ℚ))
        = Except.error "Post count must be a valid number".toList ∨
      validatePostCount (JSValue.number (0 : ℚ))
        = Except.error "Post count must be at least 1".toList ∨
      validatePostCount (JSValue.number (0 : ℚ))
        = Except.error "Post count cannot exceed 12".toList ∨
      validatePostCount (JSValue.number (0 : ℚ))
        = Except.error "Post count must be an integer".toList) :=
  ⟨(c6_validate_post_count (JSValue.number ((5 : ℤ) : ℚ))).1.mpr
      ⟨5, rfl, by norm_num, by norm_num⟩,
    (c6_validate_post_count (JSValue.number (0 : ℚ))).2 (by
      norm_num [validatePostCount]
      intro h
      exact Except.noConfusion h)⟩


/-! ### Claim C8: `DateHelper.formatDate` totalizes

The external `moment` library is an oracle mapping the raw date string to an
exception, an invalid parse, or a formatted result (the latter covers both a
plain format token and the `relative` pseudo-format).  A missing date is
`none`; the empty string is also falsy in the source's `!date` test. -/

inductive MomentResult where
  | throwsErr
  | invalidDate
  | formatted (s : List Char)
  deriving DecidableEq

def formatDate (momentEval : List Char → MomentResult) :
    Option (List Char) → List Char
  | none => "Unknown date".toList
  | some d =>
    if d = [] then "Unknown date".toList
    else
      match momentEval d with
      | MomentResult.throwsErr => "Error formatting date".toList
      | MomentResult.invalidDate => "Invalid date".toList
      | MomentResult.formatted s => s

/-- C8: date formatting totalizes — a missing or empty date yields
`"Unknown date"`, a present-but-unparseable date yields `"Invalid date"`, and
every input produces some string (an exception inside the library is caught
and mapped to the `"Error formatting date"` sentinel), so no exception
reaches the caller. -/
theorem c8_format_date_total (momentEval : List Char → MomentResult)
    (d : Option (List Char)) :
    ((d = none ∨ d = some []) → formatDate momentEval d = "Unknown date".toList) ∧
    (∀ s, d = some s → s ≠ [] → momentEval s = MomentResult.invalidDate →
      formatDate momentEval d = "Invalid date".toList) ∧
    (formatDate momentEval d = "Unknown date".toList ∨
      formatDate momentEval d = "Invalid date".toList ∨
      formatDate momentEval d = "Error formatting date".toList ∨
      ∃ s out, d = some s ∧ momentEval s = MomentResult.formatted out ∧
        formatDate momentEval d = out) := by
  refine ⟨?_, ?_, ?_⟩
  · rintro (rfl | rfl) <;> simp [formatDate]
  · rintro s rfl hne hinv
    simp [formatDate, hne, hinv]
  · cases d with
    | none => left; rfl
    | some s =>
      by_cases hs : s = []
      · left; simp [formatDate, hs]
      · cases hm : momentEval s with
        | throwsErr =>
          right; right; left
          simp [formatDate, hs, hm]
        | invalidDate =>
          right; left
          simp [formatDate, hs, hm]
        | formatted out =>
          right; right; right
          exact ⟨s, out, rfl, hm, by simp [formatDate, hs, hm]⟩

theorem c8_format_date_total_witness :
    formatDate (fun _ => MomentResult.invalidDate) (some "x".toList)
      = "Invalid date".toList ∧
    formatDate (fun _ => MomentResult.invalidDate) none = "Unknown date".toList :=
  ⟨(c8_format_date_total (fun _ => MomentResult.invalidDate) (some "x".toList)).2.1
      "x".toList rfl (by decide) rfl,
    (c8_format_date_total (fun _ => MomentResult.invalidDate) none).1 (Or.inl rfl)⟩

/-! ### Claim C10: rendering does not mutate its input

Heap model for JavaScript object identity: post objects live in a store
(`List Post`) addressed by references (`Nat`).  `processPost` starts with
`const processed = { ...post }` — an allocation of a shallow copy at a fresh
index — and performs its two field writes on that copy, so the argument
object is never written. -/

def defaultPost : Post :=
  { title := [], description := [], url := [], coverImage := [], formattedDate := [] }

def processPostSt (store : List Post) (r : Nat) (config : Config) :
    List Post × Nat :=
  let store1 := store ++ [store.getD r defaultPost]
  let r1 := store.length
  let p1 := store1.getD r1 defaultPost
  let store2 :=
    if p1.description ≠ [] ∧ config.descriptionLength < p1.description.length then
      store1.set r1 { p1 with
        description := p1.description.take config.descriptionLength ++ "...".toList }
    else store1
  let p2 := store2.getD r1 defaultPost
  let store3 :=
    if p2.coverImage = [] then store2.set r1 { p2 with coverImage := placeholderImage }
    else store2
  (store3, r1)

def mapPostsSt (config : Config) : List Post → List Nat → List Post × List Nat
  | store, [] => (store, [])
  | store, r :: rs =>
    let pr := processPostSt store r config
    let rest := mapPostsSt config pr.1 rs
    (rest.1, pr.2 :: rest.2)

/-- `TemplateService.generateContent` in the heap model: the empty-input
check, then `posts.map(post => this.processPost(post, config))` threading the
store, then the pure (read-only) layout dispatch on the processed records. -/
def generateContentSt (store : List Post) (refs : List Nat) (config : Config) :
    List Post × List Char :=
  if refs = [] then
    (store, if config.noPostsMessage = [] then "No blog posts found.".toList
      else config.noPostsMessage)
  else
    let m := mapPostsSt config store refs
    (m.1, dispatchFormat (m.2.map (fun r => m.1.getD r defaultPost)) config)

/-- The heap-model `processPost` allocates one copy and equals the pure
`processPost` applied to the record it was pointed at. -/
theorem processPostSt_eq (store : List Post) (r : Nat) (config : Config) :
    processPostSt store r config
      = (store ++ [processPost (store.getD r defaultPost) config], store.length) := by
  simp only [processPostSt, processPost, getDLenAppend, setLenAppend]
  split_ifs with h1 h2 h3 <;>
    simp_all [getDLenAppend, setLenAppend]

theorem mapPostsSt_shape (config : Config) (refs : List Nat) (store : List Post) :
    ∃ t, (mapPostsSt config store refs).1 = store ++ t := by
  induction refs generalizing store with
  | nil => exact ⟨[], by simp [mapPostsSt]⟩
  | cons r rs ih =>
    simp only [mapPostsSt, processPostSt_eq]
    obtain ⟨t, ht⟩ :=
      ih (store ++ [processPost (store.getD r defaultPost) config])
    refine ⟨[processPost (store.getD r defaultPost) config] ++ t, ?_⟩
    rw [ht]
    simp

/-- C10: rendering leaves every input post record unchanged — the final store
extends the initial store, so every reference valid before the call still
reads the same record after it. -/
theorem c10_no_mutation (store : List Post) (refs : List Nat) (config : Config) :
    ((generateContentSt store refs config).1).take store.length = store ∧
    (∀ r, r < store.length →
      ((generateContentSt store refs config).1).getD r defaultPost
        = store.getD r defaultPost) := by
  have hshape : ∃ t, (generateContentSt store refs config).1 = store ++ t := by
    unfold generateContentSt
    by_cases h : refs = []
    · rw [if_pos h]
      exact ⟨[], by simp⟩
    · rw [if_neg h]
      exact mapPostsSt_shape config refs store
  obtain ⟨t, ht⟩ := hshape
  rw [ht]
  exact ⟨takeLenAppend store t, fun r hr => getDAppendLt store t r defaultPost hr⟩

theorem c10_no_mutation_witness :
    (0 : Nat) < ([Post.mk "t".toList "abcdef".toList "u".toList [] "d".toList] :
        List Post).length ∧
    ((generateContentSt [Post.mk "t".toList "abcdef".toList "u".toList [] "d".toList]
        [0] (Config.mk "card".toList 500 100 100 3 [] [])).1).getD 0 defaultPost
      = ([Post.mk "t".toList "abcdef".toList "u".toList [] "d".toList] :
          List Post).getD 0 defaultPost :=
  ⟨by decide,
    (c10_no_mutation [Post.mk "t".toList "abcdef".toList "u".toList [] "d".toList]
      [0] (Config.mk "card".toList 500 100 100 3 [] [])).2 0 (by decide)⟩
